import Mathlib

/-!
# Verification of the dark-channel-prior dehazing pipeline

Shallow embedding of `src/main.rs` (functions `dark_channel`,
`transmission_map`, `get_atmospheric`, `floatify`, `defloatify`,
`reconstruct`).  Machine `u8`/`u32`/`usize` values are modelled as `ℕ`
(no arithmetic in the source overflows on its intended inputs), and
`f32` arithmetic is modelled exactly over `ℚ`, with the `as u8` /
`as usize` casts rendered as saturating truncation toward zero
(`Nat.floor`, capped at the integer range where relevant) and
`f32::round` as round-half-away-from-zero (for the non-negative values
produced here, `⌊q + 1/2⌋₊`).
-/

namespace Dehazing

/-- One RGBA pixel as the `image` crate's `DynamicImage::get_pixel`
returns it: four `u8` channel samples.  A source image without an alpha
channel is converted by the crate with `a = 255`. -/
structure Pix where
  r : ℕ
  g : ℕ
  b : ℕ
  a : ℕ
deriving Repr, DecidableEq

/-- A decoded image: dimensions plus the pixel lookup backing
`image.get_pixel x y`. -/
structure Image where
  width : ℕ
  height : ℕ
  pix : ℕ → ℕ → Pix

/-- `p.channels().iter().for_each(|c| minimum = minimum.min(*c))`:
fold the running minimum `m` through all four channel samples of `p`
(the `channels()` slice of an `Rgba` pixel has the alpha sample last). -/
def chanFold (m : ℕ) (p : Pix) : ℕ :=
  (((m.min p.r).min p.g).min p.b).min p.a

/-- Minimum over the three color channels of a pixel. -/
def rgbMin (p : Pix) : ℕ :=
  (p.r.min p.g).min p.b

/-- Minimum over all four channel samples of a pixel. -/
def rgbaMin (p : Pix) : ℕ :=
  ((p.r.min p.g).min p.b).min p.a

/-- The dark-channel value of one output pixel: the two nested
`for yp in 0..patch_size { for xp in 0..patch_size { ... } }` loops of
`dark_channel`, with the source's skip conditions
`yp > y + patch_size/2 || (y + patch_size/2) - yp >= height` (and the
analogous `xp` test) and the running minimum seeded at `255`. -/
def darkAt (img : Image) (patch : ℕ) (x y : ℕ) : ℕ :=
  (List.range patch).foldl (fun m yp =>
    if y + patch / 2 < yp ∨ img.height ≤ y + patch / 2 - yp then m
    else (List.range patch).foldl (fun m2 xp =>
      if x + patch / 2 < xp ∨ img.width ≤ x + patch / 2 - xp then m2
      else chanFold m2 (img.pix (x + patch / 2 - xp) (y + patch / 2 - yp))) m) 255

/-- `dark_channel`: one value per pixel, pixels visited in the
`iproduct!(0..height, 0..width)` order (row-major, `y` outer). -/
def dark_channel (img : Image) (patch : ℕ) : List ℕ :=
  ((List.range img.height).map (fun y =>
    (List.range img.width).map (fun x => darkAt img patch x y))).flatten

/-- The `y`-coordinates actually sampled by the outer loop of
`dark_channel` at output row `y` (offsets whose coordinate falls outside
`[0, height)` produce no sample). -/
def sampledYs (img : Image) (patch : ℕ) (y : ℕ) : List ℕ :=
  (List.range patch).filterMap (fun yp =>
    if y + patch / 2 < yp ∨ img.height ≤ y + patch / 2 - yp then none
    else some (y + patch / 2 - yp))

/-- The `x`-coordinates actually sampled by the inner loop of
`dark_channel` at output column `x`. -/
def sampledXs (img : Image) (patch : ℕ) (x : ℕ) : List ℕ :=
  (List.range patch).filterMap (fun xp =>
    if x + patch / 2 < xp ∨ img.width ≤ x + patch / 2 - xp then none
    else some (x + patch / 2 - xp))

/-- All coordinates passed to `image.get_pixel` while computing the
dark-channel value of output pixel `(x, y)`. -/
def sampledCoords (img : Image) (patch : ℕ) (x y : ℕ) : List (ℕ × ℕ) :=
  (sampledYs img patch y).flatMap (fun sy =>
    (sampledXs img patch x).map (fun sx => (sx, sy)))

/-- `transmission_map`: each entry `d` becomes
`255 - (d as f32 * omega) as u8`; the float-to-`u8` cast truncates
toward zero and saturates, modelled by `⌊·⌋₊` capped at `255`. -/
def transmission_map (dark_map : List ℕ) (omega : ℚ) : List ℕ :=
  dark_map.map (fun (d : ℕ) => 255 - min (⌊(d : ℚ) * omega⌋₊) 255)

/-- The comparator `|(_, d), (_, d2)| Ord::cmp(&d2, &d)` handed to
`sorted_by`: element `a` may precede element `b` exactly when
`b`'s darkness value is at most `a`'s (descending order). -/
def descLE (a b : ℕ × ℕ) : Bool := b.2 ≤ a.2

/-- `dark_map.iter().enumerate().sorted_by(...)`: the `(index, value)`
pairs stably sorted by value descending (`itertools::sorted_by` is a
stable sort). -/
def sortedIdx (dark_map : List ℕ) : List (ℕ × ℕ) :=
  dark_map.enum.mergeSort descLE

/-- `(dark_map.len() as f32 * a_proportion) as usize`: the saturating
truncating cast of the product, modelled by `Nat.floor` (negative
products truncate to `0` exactly as the Rust cast does). -/
def numCandidates (n : ℕ) (prop : ℚ) : ℕ := ⌊(n : ℚ) * prop⌋₊

/-- The candidate pixel indices examined by `get_atmospheric`:
`.take(...)` of the stably-descending-sorted enumeration, keeping only
the indices. -/
def candidates (dark_map : List ℕ) (prop : ℚ) : List ℕ :=
  ((sortedIdx dark_map).take (numCandidates dark_map.length prop)).map (·.1)

/-- `px[0].max(px[1]).max(px[2])`: the intensity used by the
atmospheric-light scan (alpha not consulted). -/
def intensity (p : Pix) : ℕ := (p.r.max p.g).max p.b

/-- The pixel a flat candidate index denotes:
`x = i % width`, `y = i / width`. -/
def pixAt (img : Image) (i : ℕ) : Pix :=
  img.pix (i % img.width) (i / img.width)

/-- One iteration of the `for i in brightest { ... }` loop of
`get_atmospheric`: update the running `(best_i, best_px)` whenever the
candidate's intensity is strictly greater. -/
def scanStep (img : Image) (acc : ℕ × (ℕ × ℕ × ℕ)) (i : ℕ) : ℕ × (ℕ × ℕ × ℕ) :=
  let px := pixAt img i
  if acc.1 < intensity px then (intensity px, (px.r, px.g, px.b)) else acc

/-- `get_atmospheric`: scan the candidates with the running maximum
seeded at `(0, (255, 255, 255))` and return the best pixel. -/
def get_atmospheric (dark_map : List ℕ) (img : Image) (a_proportion : ℚ) :
    ℕ × ℕ × ℕ :=
  ((candidates dark_map a_proportion).foldl (scanStep img) (0, (255, 255, 255))).2

/-- `floatify`: `u as f32 / 255.0`. -/
def floatify (u : ℕ) : ℚ := (u : ℚ) / 255

/-- `f.clamp(0.0, 1.0)` (equivalently `f.max(0.0).min(1.0)`). -/
def clamp01 (f : ℚ) : ℚ := min (max f 0) 1

/-- `defloatify`: `(f.clamp(0.0, 1.0) * 255.0).round() as u8`; the
value rounded is in `[0, 255]`, where `f32::round` (half away from
zero) agrees with `⌊· + 1/2⌋₊` and the cast is exact. -/
def defloatify (f : ℚ) : ℕ := ⌊clamp01 f * 255 + 1 / 2⌋₊

/-- The three output samples `reconstruct` pushes for source pixel
`(x, y)`, given the already-normalized atmospheric triple `A`. -/
def reconstructPixel (img : Image) (A : ℚ × ℚ × ℚ) (tmap : List ℕ)
    (t0 : ℚ) (x y : ℕ) : List ℕ :=
  let p := img.pix x y
  let t := max (floatify (tmap.getD (y * img.width + x) 0)) t0
  [defloatify ((floatify p.r - A.1) / t + A.1),
   defloatify ((floatify p.g - A.2.1) / t + A.2.1),
   defloatify ((floatify p.b - A.2.2) / t + A.2.2)]

/-- `reconstruct`: pixels visited in `image.pixels()` order (row-major,
`y` outer), three samples pushed per pixel, alpha never read. -/
def reconstruct (img : Image) (atm : ℕ × ℕ × ℕ) (tmap : List ℕ)
    (t0 : ℚ) : List ℕ :=
  ((List.range img.height).map (fun y =>
    ((List.range img.width).map (fun x =>
      reconstructPixel img (floatify atm.1, floatify atm.2.1, floatify atm.2.2)
        tmap t0 x y)).flatten)).flatten

/-- The candidate set exactly as §4.2 of the spec words it: the first
`round(N · topFraction)` entries of the sorted index list (the source
instead truncates the product). -/
def specCandidatesRound (dark_map : List ℕ) (prop : ℚ) : List ℕ :=
  ((sortedIdx dark_map).take (round ((dark_map.length : ℚ) * prop)).toNat).map (·.1)

/-! ## Generic list lemmas -/

/-- A fold whose body skips elements failing a test is the plain fold
over the `filterMap` keeping the surviving values. -/
theorem foldl_skip_eq_foldl_filterMap {α β γ : Type} (cond : α → Prop)
    [DecidablePred cond] (val : α → γ) (g : β → γ → β) :
    ∀ (l : List α) (init : β),
      l.foldl (fun m a => if cond a then m else g m (val a)) init =
        (l.filterMap (fun a => if cond a then none else some (val a))).foldl g init := by
  intro l
  induction l with
  | nil => intro init; rfl
  | cons a l ih =>
    intro init
    by_cases h : cond a <;> simp [h, ih]

/-- Folding over a `flatMap` is the nested fold. -/
theorem foldl_flatMap_eq {α β γ : Type} (f : α → List γ) (g : β → γ → β) :
    ∀ (l : List α) (init : β),
      (l.flatMap f).foldl g init = l.foldl (fun m a => (f a).foldl g m) init := by
  intro l
  induction l with
  | nil => intro init; rfl
  | cons a l ih => intro init; simp [List.flatMap_cons, List.foldl_append, ih]

/-- Indexing into the flattening of a list of rows of constant length
`k`: entry `k * y + x` of the flattening is entry `x` of row `y`. -/
theorem flatten_getElem?_of_const_length {α : Type} (k : ℕ) :
    ∀ (L : List (List α)) (y x : ℕ), (∀ r ∈ L, r.length = k) →
      (hy : y < L.length) → x < k →
      L.flatten[k * y + x]? = L[y][x]? := by
  intro L
  induction L with
  | nil => intro y x _ hy; exact absurd hy (by simp)
  | cons r L ih =>
    intro y x hlen hy hx
    match y with
    | 0 =>
      have hr : r.length = k := hlen r (by simp)
      simp only [List.flatten_cons, Nat.mul_zero, Nat.zero_add]
      rw [List.getElem?_append]
      simp [hr, hx]
    | y + 1 =>
      have hr : r.length = k := hlen r (by simp)
      simp only [List.flatten_cons]
      rw [List.getElem?_append]
      have h1 : ¬ (k * (y + 1) + x < r.length) := by
        rw [hr]; push_neg; calc k ≤ k * (y + 1) := Nat.le_mul_of_pos_right k (Nat.succ_pos y)
          _ ≤ k * (y + 1) + x := Nat.le_add_right _ _
      rw [if_neg h1, hr]
      have h2 : k * (y + 1) + x - k = k * y + x := by ring_nf; omega
      rw [h2, ih y x (fun r hr => hlen r (by simp [hr])) (by simpa using hy) hx]
      simp

/-! ## The dark-channel window -/

/-- `chanFold` folds the running minimum with the pixel's four-channel
minimum. -/
theorem chanFold_eq_min_rgbaMin (m : ℕ) (p : Pix) :
    chanFold m p = min m (rgbaMin p) := by
  simp [chanFold, rgbaMin, Nat.min_assoc]

/-- `darkAt` is the fold of the channel minimum over exactly the
sampled coordinates. -/
theorem darkAt_eq_fold_sampledCoords (img : Image) (patch x y : ℕ) :
    darkAt img patch x y =
      (sampledCoords img patch x y).foldl
        (fun m c => min m (rgbaMin (img.pix c.1 c.2))) 255 := by
  rw [sampledCoords, foldl_flatMap_eq]
  simp only [List.foldl_map]
  simp only [darkAt, chanFold_eq_min_rgbaMin]
  rw [foldl_skip_eq_foldl_filterMap
    (fun yp => y + patch / 2 < yp ∨ img.height ≤ y + patch / 2 - yp)
    (fun yp => y + patch / 2 - yp)
    (fun m sy => (List.range patch).foldl (fun m2 xp =>
      if x + patch / 2 < xp ∨ img.width ≤ x + patch / 2 - xp then m2
      else min m2 (rgbaMin (img.pix (x + patch / 2 - xp) sy))) m)]
  rw [← sampledYs]
  congr 1
  funext m sy
  rw [foldl_skip_eq_foldl_filterMap
    (fun xp => x + patch / 2 < xp ∨ img.width ≤ x + patch / 2 - xp)
    (fun xp => x + patch / 2 - xp)
    (fun m2 sx => min m2 (rgbaMin (img.pix sx sy)))]
  rw [← sampledXs]

/-- A min-fold never exceeds its seed. -/
theorem foldl_min_le_init {γ : Type} (f : γ → ℕ) :
    ∀ (l : List γ) (init : ℕ), l.foldl (fun m c => min m (f c)) init ≤ init := by
  intro l
  induction l with
  | nil => intro init; exact Nat.le_refl _
  | cons c l ih =>
    intro init
    exact Nat.le_trans (ih (min init (f c))) (Nat.min_le_left _ _)

/-- A min-fold is bounded by the value of every list element. -/
theorem foldl_min_le_mem {γ : Type} (f : γ → ℕ) :
    ∀ (l : List γ) (init : ℕ) (c : γ), c ∈ l →
      l.foldl (fun m c => min m (f c)) init ≤ f c := by
  intro l
  induction l with
  | nil => intro init c hc; exact absurd hc (by simp)
  | cons d l ih =>
    intro init c hc
    rcases List.mem_cons.mp hc with h | h
    · subst h
      exact Nat.le_trans (foldl_min_le_init f l _) (Nat.min_le_right _ _)
    · exact ih _ c h

/-- A min-fold yields either its seed or the value of some element. -/
theorem foldl_min_cases {γ : Type} (f : γ → ℕ) :
    ∀ (l : List γ) (init : ℕ),
      l.foldl (fun m c => min m (f c)) init = init ∨
        ∃ c ∈ l, l.foldl (fun m c => min m (f c)) init = f c := by
  intro l
  induction l with
  | nil => intro init; exact Or.inl rfl
  | cons d l ih =>
    intro init
    rcases ih (min init (f d)) with h | ⟨c, hc, h⟩
    · rcases min_cases init (f d) with ⟨hm, _⟩ | ⟨hm, _⟩
      · exact Or.inl (by rw [List.foldl_cons, h, hm])
      · exact Or.inr ⟨d, by simp, by rw [List.foldl_cons, h, hm]⟩
    · exact Or.inr ⟨c, by simp [hc], by rw [List.foldl_cons, h]⟩

/-- The center pixel is always sampled when the window is nonempty and
the center is in bounds. -/
theorem center_mem_sampledCoords (img : Image) (patch x y : ℕ)
    (hp : 1 ≤ patch) (hx : x < img.width) (hy : y < img.height) :
    (x, y) ∈ sampledCoords img patch x y := by
  have hyp : y ∈ sampledYs img patch y := by
    rw [sampledYs, List.mem_filterMap]
    refine ⟨patch / 2, List.mem_range.mpr (Nat.div_lt_self (by omega) (by omega)), ?_⟩
    rw [if_neg (by omega)]
    exact congrArg some (by omega)
  have hxp : x ∈ sampledXs img patch x := by
    rw [sampledXs, List.mem_filterMap]
    refine ⟨patch / 2, List.mem_range.mpr (Nat.div_lt_self (by omega) (by omega)), ?_⟩
    rw [if_neg (by omega)]
    exact congrArg some (by omega)
  rw [sampledCoords, List.mem_flatMap]
  exact ⟨y, hyp, List.mem_map.mpr ⟨x, hxp, rfl⟩⟩

/-- Entry `y * width + x` of the darkness map is the window value of
pixel `(x, y)`. -/
theorem dark_channel_getElem? (img : Image) (patch x y : ℕ)
    (hx : x < img.width) (hy : y < img.height) :
    (dark_channel img patch)[y * img.width + x]? =
      some (darkAt img patch x y) := by
  rw [dark_channel, Nat.mul_comm y img.width]
  rw [flatten_getElem?_of_const_length img.width _ y x
    (by intro r hr; obtain ⟨y', _, rfl⟩ := List.mem_map.mp hr; simp)
    (by simpa using hy) hx]
  simp [hx]

/-- Every channel sample of a pixel bounds its four-channel minimum. -/
theorem rgbaMin_le_a (p : Pix) : rgbaMin p ≤ p.a := Nat.min_le_right _ _

/-- With `alpha = 255` and in-range color channels, the four-channel
minimum is the three-channel one. -/
theorem rgbaMin_eq_rgbMin (p : Pix) (ha : p.a = 255) (hr : p.r ≤ 255) :
    rgbaMin p = rgbMin p := by
  rw [rgbaMin, ← rgbMin, ha]
  exact Nat.min_eq_left (by
    calc rgbMin p ≤ p.r := Nat.le_trans (Nat.min_le_left _ _) (Nat.min_le_left _ _)
      _ ≤ 255 := hr)

/-- A 1×1 image whose alpha sample is strictly below `min(R,G,B)`. -/
def imgAlpha : Image := ⟨1, 1, fun _ _ => ⟨10, 10, 10, 5⟩⟩

/-- A 1×1 alpha-free (alpha ≡ 255) test image. -/
def imgW : Image := ⟨1, 1, fun _ _ => ⟨20, 30, 40, 255⟩⟩

/-- **C1 (counterexample)**: on a 1×1 image with pixel
`(R,G,B,A) = (10,10,10,5)` and `patchSize = 1`, `dark_channel` yields
`5` — the alpha sample — not `min(R,G,B) = 10` as the claim states. -/
theorem C1_counterexample :
    dark_channel imgAlpha 1 = [5] ∧
    rgbMin (imgAlpha.pix 0 0) = 10 ∧ (5 : ℕ) ≠ 10 := by decide

/-- **C1 (amended)**: for every image (channel samples in `u8` range)
and `patchSize ≥ 1`, the darkness map at `(x,y)` is the minimum, over
all in-bounds window samples, of the minimum over all four stored
channel samples (R, G, B and alpha — the pixel is fetched as RGBA, so
an alpha channel participates); with `patchSize = 1` it equals that
four-channel minimum of the source pixel, which is `min(R,G,B)` exactly
when the source carries no alpha channel (alpha ≡ 255). -/
theorem C1_dark_channel_window_min (img : Image) (patch x y : ℕ)
    (hp : 1 ≤ patch) (hx : x < img.width) (hy : y < img.height)
    (h255 : ∀ u v, (img.pix u v).r ≤ 255 ∧ (img.pix u v).g ≤ 255 ∧
      (img.pix u v).b ≤ 255 ∧ (img.pix u v).a ≤ 255) :
    (dark_channel img patch)[y * img.width + x]? =
      some (darkAt img patch x y) ∧
    (∀ c ∈ sampledCoords img patch x y,
      darkAt img patch x y ≤ rgbaMin (img.pix c.1 c.2)) ∧
    (∃ c ∈ sampledCoords img patch x y,
      darkAt img patch x y = rgbaMin (img.pix c.1 c.2)) ∧
    (patch = 1 → darkAt img patch x y = rgbaMin (img.pix x y)) ∧
    ((∀ u v, (img.pix u v).a = 255) → patch = 1 →
      darkAt img patch x y = rgbMin (img.pix x y)) := by
  have hub : ∀ c ∈ sampledCoords img patch x y,
      darkAt img patch x y ≤ rgbaMin (img.pix c.1 c.2) := by
    intro c hc
    rw [darkAt_eq_fold_sampledCoords]
    exact foldl_min_le_mem _ _ 255 c hc
  have hcenter := center_mem_sampledCoords img patch x y hp hx hy
  have hex : ∃ c ∈ sampledCoords img patch x y,
      darkAt img patch x y = rgbaMin (img.pix c.1 c.2) := by
    rcases foldl_min_cases (fun c : ℕ × ℕ => rgbaMin (img.pix c.1 c.2))
        (sampledCoords img patch x y) 255 with h | ⟨c, hc, h⟩
    · refine ⟨(x, y), hcenter, ?_⟩
      show darkAt img patch x y = rgbaMin (img.pix x y)
      have h1 := hub (x, y) hcenter
      have h2 : rgbaMin (img.pix x y) ≤ 255 :=
        Nat.le_trans (rgbaMin_le_a _) (h255 x y).2.2.2
      have h3 : darkAt img patch x y = 255 := by
        rw [darkAt_eq_fold_sampledCoords, h]
      simp only [Prod.fst, Prod.snd] at h1
      omega
    · exact ⟨c, hc, by rw [darkAt_eq_fold_sampledCoords, h]⟩
  have hone : patch = 1 → darkAt img patch x y = rgbaMin (img.pix x y) := by
    intro hpe
    subst hpe
    rw [darkAt]
    simp only [show List.range 1 = [0] from rfl, List.foldl_cons, List.foldl_nil,
      Nat.reduceDiv, Nat.add_zero, Nat.sub_zero]
    rw [if_neg (by omega), if_neg (by omega)]
    rw [chanFold_eq_min_rgbaMin]
    exact Nat.min_eq_right (Nat.le_trans (rgbaMin_le_a _) (h255 x y).2.2.2)
  refine ⟨dark_channel_getElem? img patch x y hx hy, hub, hex, hone, ?_⟩
  intro ha hpe
  rw [hone hpe, rgbaMin_eq_rgbMin _ (ha x y) (h255 x y).1]

/-- Closed witness for `C1_dark_channel_window_min` at a concrete
alpha-free 1×1 image with `patchSize = 1`. -/
theorem C1_witness :
    (1 ≤ 1 ∧ 0 < imgW.width ∧ 0 < imgW.height ∧
      (∀ u v, (imgW.pix u v).r ≤ 255 ∧ (imgW.pix u v).g ≤ 255 ∧
        (imgW.pix u v).b ≤ 255 ∧ (imgW.pix u v).a ≤ 255)) ∧
    ((dark_channel imgW 1)[0 * imgW.width + 0]? = some (darkAt imgW 1 0 0) ∧
     (∀ c ∈ sampledCoords imgW 1 0 0,
       darkAt imgW 1 0 0 ≤ rgbaMin (imgW.pix c.1 c.2)) ∧
     (∃ c ∈ sampledCoords imgW 1 0 0,
       darkAt imgW 1 0 0 = rgbaMin (imgW.pix c.1 c.2)) ∧
     (1 = 1 → darkAt imgW 1 0 0 = rgbaMin (imgW.pix 0 0)) ∧
     ((∀ u v, (imgW.pix u v).a = 255) → 1 = 1 →
       darkAt imgW 1 0 0 = rgbMin (imgW.pix 0 0))) :=
  ⟨⟨Nat.le_refl 1, by decide, by decide, fun u v => by norm_num [imgW]⟩,
   C1_dark_channel_window_min imgW 1 0 0 (Nat.le_refl 1) (by decide) (by decide)
     (fun u v => by norm_num [imgW])⟩

/-- The `x`-coordinates sampled by the inner loop are exactly
`x + dx` for offsets `dx` from `-(patch-1-⌊patch/2⌋)` to `+⌊patch/2⌋`
whose result is in `[0, width)`. -/
theorem mem_sampledXs_iff (img : Image) (patch x sx : ℕ) :
    sx ∈ sampledXs img patch x ↔
      ∃ dx : ℤ, -((patch : ℤ) - 1 - ((patch / 2 : ℕ) : ℤ)) ≤ dx ∧
        dx ≤ ((patch / 2 : ℕ) : ℤ) ∧ (sx : ℤ) = (x : ℤ) + dx ∧
        sx < img.width := by
  rw [sampledXs, List.mem_filterMap]
  constructor
  · rintro ⟨xp, hxp, hif⟩
    rw [List.mem_range] at hxp
    by_cases hc : x + patch / 2 < xp ∨ img.width ≤ x + patch / 2 - xp
    · rw [if_pos hc] at hif; cases hif
    · rw [if_neg hc] at hif
      push_neg at hc
      obtain ⟨h1, h2⟩ := hc
      injection hif with hval
      exact ⟨((patch / 2 : ℕ) : ℤ) - (xp : ℤ), by omega, by omega, by omega,
        by omega⟩
  · rintro ⟨dx, hlo, hhi, heq, hw⟩
    refine ⟨(((patch / 2 : ℕ) : ℤ) - dx).toNat, ?_, ?_⟩
    · rw [List.mem_range]; omega
    · rw [if_neg (by omega)]
      exact congrArg some (by omega)

/-- The `y`-coordinates sampled by the outer loop, analogously. -/
theorem mem_sampledYs_iff (img : Image) (patch y sy : ℕ) :
    sy ∈ sampledYs img patch y ↔
      ∃ dy : ℤ, -((patch : ℤ) - 1 - ((patch / 2 : ℕ) : ℤ)) ≤ dy ∧
        dy ≤ ((patch / 2 : ℕ) : ℤ) ∧ (sy : ℤ) = (y : ℤ) + dy ∧
        sy < img.height := by
  rw [sampledYs, List.mem_filterMap]
  constructor
  · rintro ⟨yp, hyp, hif⟩
    rw [List.mem_range] at hyp
    by_cases hc : y + patch / 2 < yp ∨ img.height ≤ y + patch / 2 - yp
    · rw [if_pos hc] at hif; cases hif
    · rw [if_neg hc] at hif
      push_neg at hc
      obtain ⟨h1, h2⟩ := hc
      injection hif with hval
      exact ⟨((patch / 2 : ℕ) : ℤ) - (yp : ℤ), by omega, by omega, by omega,
        by omega⟩
  · rintro ⟨dy, hlo, hhi, heq, hh⟩
    refine ⟨(((patch / 2 : ℕ) : ℤ) - dy).toNat, ?_, ?_⟩
    · rw [List.mem_range]; omega
    · rw [if_neg (by omega)]
      exact congrArg some (by omega)

/-- A coordinate pair is sampled iff both its axes are. -/
theorem mem_sampledCoords_iff (img : Image) (patch x y sx sy : ℕ) :
    (sx, sy) ∈ sampledCoords img patch x y ↔
      sx ∈ sampledXs img patch x ∧ sy ∈ sampledYs img patch y := by
  rw [sampledCoords, List.mem_flatMap]
  constructor
  · rintro ⟨sy', hsy', hm⟩
    obtain ⟨sx', hsx', heq⟩ := List.mem_map.mp hm
    injection heq with e1 e2
    subst e1; subst e2
    exact ⟨hsx', hsy'⟩
  · rintro ⟨h1, h2⟩
    exact ⟨sy, h2, List.mem_map.mpr ⟨sx, h1, rfl⟩⟩

/-- **C3**: for `patchSize ≥ 1`, the window examined by `dark_channel`
at output pixel `(x,y)` consists exactly of the coordinates
`(x+dx, y+dy)` with `dx, dy` between `-(patchSize-1-⌊patchSize/2⌋)` and
`+⌊patchSize/2⌋`; any offset whose coordinate leaves
`[0,W) × [0,H)` is skipped entirely (no padding, reflection or
clamping). -/
theorem C3_window_geometry (img : Image) (patch x y sx sy : ℕ)
    (hp : 1 ≤ patch) :
    (sx, sy) ∈ sampledCoords img patch x y ↔
      ∃ dx dy : ℤ,
        -((patch : ℤ) - 1 - ((patch / 2 : ℕ) : ℤ)) ≤ dx ∧
        dx ≤ ((patch / 2 : ℕ) : ℤ) ∧
        -((patch : ℤ) - 1 - ((patch / 2 : ℕ) : ℤ)) ≤ dy ∧
        dy ≤ ((patch / 2 : ℕ) : ℤ) ∧
        (sx : ℤ) = (x : ℤ) + dx ∧ (sy : ℤ) = (y : ℤ) + dy ∧
        sx < img.width ∧ sy < img.height := by
  rw [mem_sampledCoords_iff, mem_sampledXs_iff, mem_sampledYs_iff]
  constructor
  · rintro ⟨⟨dx, hx1, hx2, hx3, hx4⟩, ⟨dy, hy1, hy2, hy3, hy4⟩⟩
    exact ⟨dx, dy, hx1, hx2, hy1, hy2, hx3, hy3, hx4, hy4⟩
  · rintro ⟨dx, dy, hx1, hx2, hy1, hy2, hx3, hy3, hx4, hy4⟩
    exact ⟨⟨dx, hx1, hx2, hx3, hx4⟩, ⟨dy, hy1, hy2, hy3, hy4⟩⟩

/-- A 2×2 alpha-free test image. -/
def imgW2 : Image := ⟨2, 2, fun _ _ => ⟨1, 2, 3, 255⟩⟩

/-- Closed witness for `C3_window_geometry`: the corner pixel `(0,0)`
of a 2×2 image with a 3×3 window. -/
theorem C3_witness :
    1 ≤ 3 ∧
    ((1, 1) ∈ sampledCoords imgW2 3 0 0 ↔
      ∃ dx dy : ℤ,
        -((3 : ℤ) - 1 - ((3 / 2 : ℕ) : ℤ)) ≤ dx ∧
        dx ≤ ((3 / 2 : ℕ) : ℤ) ∧
        -((3 : ℤ) - 1 - ((3 / 2 : ℕ) : ℤ)) ≤ dy ∧
        dy ≤ ((3 / 2 : ℕ) : ℤ) ∧
        ((1 : ℕ) : ℤ) = ((0 : ℕ) : ℤ) + dx ∧ ((1 : ℕ) : ℤ) = ((0 : ℕ) : ℤ) + dy ∧
        (1 : ℕ) < imgW2.width ∧ (1 : ℕ) < imgW2.height) :=
  ⟨by decide, C3_window_geometry imgW2 3 0 0 1 1 (by decide)⟩

/-! ## Transmission map -/

/-- **C4**: with `omega ∈ (0,1)` and `u8` entries, `transmission_map`
maps each entry `d` pointwise to exactly `255 - ⌊d·omega⌋` and
preserves the shape (length) of the darkness map. -/
theorem C4_transmission_pointwise (dm : List ℕ) (omega : ℚ)
    (h0 : 0 < omega) (h1 : omega < 1) (h255 : ∀ d ∈ dm, d ≤ 255) :
    (transmission_map dm omega).length = dm.length ∧
    ∀ (i d : ℕ), dm[i]? = some d →
      (transmission_map dm omega)[i]? = some (255 - ⌊(d : ℚ) * omega⌋₊) := by
  constructor
  · rw [transmission_map, List.length_map]
  · intro i d hd
    rw [transmission_map, List.getElem?_map, hd, Option.map_some']
    have hdm : d ≤ 255 := h255 d (List.getElem?_mem hd)
    have hflt : ⌊(d : ℚ) * omega⌋₊ < 255 := by
      rw [Nat.floor_lt (by positivity)]
      calc (d : ℚ) * omega ≤ 255 * omega := by
            apply mul_le_mul_of_nonneg_right _ (le_of_lt h0)
            exact_mod_cast hdm
        _ < 255 * 1 := by
            apply mul_lt_mul_of_pos_left h1 (by norm_num)
        _ = 255 := by norm_num
    rw [Nat.min_eq_left (Nat.le_of_lt hflt)]

/-- Closed witness for `C4_transmission_pointwise` at
`dark_map = [0, 200, 255]`, `omega = 0.95`. -/
theorem C4_witness :
    ((0 : ℚ) < 19/20 ∧ (19/20 : ℚ) < 1 ∧ ∀ d ∈ ([0, 200, 255] : List ℕ), d ≤ 255) ∧
    ((transmission_map [0, 200, 255] (19/20)).length = ([0, 200, 255] : List ℕ).length ∧
     ∀ (i d : ℕ), ([0, 200, 255] : List ℕ)[i]? = some d →
       (transmission_map [0, 200, 255] (19/20))[i]? =
         some (255 - ⌊(d : ℚ) * (19/20)⌋₊)) :=
  ⟨⟨by norm_num, by norm_num, by decide⟩,
   C4_transmission_pointwise [0, 200, 255] (19/20) (by norm_num) (by norm_num)
     (by decide)⟩

/-! ## Range invariants -/

/-- `defloatify` lands in the `u8` range. -/
theorem defloatify_le_255 (f : ℚ) : defloatify f ≤ 255 := by
  rw [defloatify]
  have h : clamp01 f * 255 + 1 / 2 ≤ 255 + 1 / 2 := by
    have h1 : clamp01 f ≤ 1 := min_le_right _ _
    nlinarith
  calc ⌊clamp01 f * 255 + 1 / 2⌋₊ ≤ ⌊(255 : ℚ) + 1 / 2⌋₊ := Nat.floor_le_floor h
    _ = 255 := by
        rw [Nat.floor_eq_iff (by norm_num)]
        norm_num

/-- Every darkness-map value is at most 255. -/
theorem dark_channel_le_255 (img : Image) (patch : ℕ) :
    ∀ v ∈ dark_channel img patch, v ≤ 255 := by
  intro v hv
  rw [dark_channel] at hv
  obtain ⟨r, hr, hvr⟩ := List.mem_flatten.mp hv
  obtain ⟨y, _, rfl⟩ := List.mem_map.mp hr
  obtain ⟨x, _, rfl⟩ := List.mem_map.mp hvr
  rw [darkAt_eq_fold_sampledCoords]
  exact foldl_min_le_init _ _ 255

/-- **C8**: with parameters in their valid domains, every value of the
darkness map, the transmission map and the reconstructed image lies in
`[0, 255]` (values are naturals, so only the upper bound is content):
no value escapes the seed minimum, the `u8` subtraction, or the clamp
step respectively. -/
theorem C8_range_invariant (img : Image) (patch : ℕ) (dm tmap : List ℕ)
    (omega t0 : ℚ) (atm : ℕ × ℕ × ℕ) (h0 : 0 < omega) (h1 : omega < 1)
    (ht0 : 0 < t0) (ht1 : t0 < 1) :
    (∀ v ∈ dark_channel img patch, v ≤ 255) ∧
    (∀ v ∈ transmission_map dm omega, v ≤ 255) ∧
    (∀ v ∈ reconstruct img atm tmap t0, v ≤ 255) := by
  refine ⟨dark_channel_le_255 img patch, ?_, ?_⟩
  · intro v hv
    obtain ⟨d, _, rfl⟩ := List.mem_map.mp hv
    exact Nat.sub_le _ _
  · intro v hv
    rw [reconstruct] at hv
    obtain ⟨row, hrow, hvrow⟩ := List.mem_flatten.mp hv
    obtain ⟨y, _, rfl⟩ := List.mem_map.mp hrow
    obtain ⟨cell, hcell, hvcell⟩ := List.mem_flatten.mp hvrow
    obtain ⟨x, _, rfl⟩ := List.mem_map.mp hcell
    rw [reconstructPixel] at hvcell
    simp only [List.mem_cons, List.not_mem_nil, or_false] at hvcell
    rcases hvcell with rfl | rfl | rfl <;> exact defloatify_le_255 _

/-- Closed witness for `C8_range_invariant` at a concrete 1×1 image and
the default parameters. -/
theorem C8_witness :
    ((0 : ℚ) < 19/20 ∧ (19/20 : ℚ) < 1 ∧ (0 : ℚ) < 1/10 ∧ (1/10 : ℚ) < 1) ∧
    ((∀ v ∈ dark_channel imgW 5, v ≤ 255) ∧
     (∀ v ∈ transmission_map [300] (19/20), v ≤ 255) ∧
     (∀ v ∈ reconstruct imgW (0, 0, 0) [0] (1/10), v ≤ 255)) :=
  ⟨⟨by norm_num, by norm_num, by norm_num, by norm_num⟩,
   C8_range_invariant imgW 5 [300] [0] (19/20) (1/10) (0, 0, 0)
     (by norm_num) (by norm_num) (by norm_num) (by norm_num)⟩

/-! ## Absence of input validation -/

/-- A 0×0 image. -/
def img0 : Image := ⟨0, 0, fun _ _ => ⟨0, 0, 0, 255⟩⟩

/-- **C7 (counterexample)**: on a width-0, height-0 image all four
stages complete normally, returning empty maps (and the white default
for the atmospheric light) instead of signalling any error. -/
theorem C7_counterexample :
    dark_channel img0 5 = [] ∧
    transmission_map (dark_channel img0 5) (19/20) = [] ∧
    get_atmospheric (dark_channel img0 5) img0 (1/500) = (255, 255, 255) ∧
    reconstruct img0 (255, 255, 255)
      (transmission_map (dark_channel img0 5) (19/20)) (1/10) = [] := by
  refine ⟨rfl, rfl, ?_, rfl⟩
  rw [get_atmospheric, candidates, sortedIdx]
  simp [img0, dark_channel]

/-- **C7 (amended)**: none of the four stages validates its input.  On
an image with zero width or height each completes normally:
`dark_channel` and `transmission_map` return empty maps,
`get_atmospheric` returns the seeded default `(255,255,255)`, and
`reconstruct` returns an empty output — for arbitrary parameter values,
in or out of their domains. -/
theorem C7_no_validation (img : Image) (h : img.width = 0 ∨ img.height = 0)
    (patch : ℕ) (omega prop t0 : ℚ) (atm : ℕ × ℕ × ℕ) :
    dark_channel img patch = [] ∧
    transmission_map (dark_channel img patch) omega = [] ∧
    get_atmospheric (dark_channel img patch) img prop = (255, 255, 255) ∧
    reconstruct img atm (transmission_map (dark_channel img patch) omega)
      t0 = [] := by
  have hdc : dark_channel img patch = [] := by
    rw [dark_channel, List.flatten_eq_nil_iff]
    intro r hr
    obtain ⟨y, hy, rfl⟩ := List.mem_map.mp hr
    rcases h with h | h
    · rw [h]; rfl
    · rw [h] at hy; cases hy
  have hget : get_atmospheric [] img prop = (255, 255, 255) := by
    rw [get_atmospheric, candidates, sortedIdx]
    simp
  have hrec : reconstruct img atm [] t0 = [] := by
    rw [reconstruct, List.flatten_eq_nil_iff]
    intro r hr
    obtain ⟨y, hy, rfl⟩ := List.mem_map.mp hr
    rcases h with h | h
    · rw [h, List.flatten_eq_nil_iff]
      intro r2 hr2
      obtain ⟨x, hx2, rfl⟩ := List.mem_map.mp hr2
      simp at hx2
    · rw [h] at hy; cases hy
  rw [hdc]
  exact ⟨rfl, rfl, hget, by rw [show transmission_map [] omega = [] from rfl]; exact hrec⟩

/-- Closed witness for `C7_no_validation` at the 0×0 image. -/
theorem C7_witness :
    (img0.width = 0 ∨ img0.height = 0) ∧
    (dark_channel img0 5 = [] ∧
     transmission_map (dark_channel img0 5) (19/20) = [] ∧
     get_atmospheric (dark_channel img0 5) img0 (1/500) = (255, 255, 255) ∧
     reconstruct img0 (0, 0, 0)
       (transmission_map (dark_channel img0 5) (19/20)) (1/10) = []) :=
  ⟨Or.inl rfl,
   C7_no_validation img0 (Or.inl rfl) 5 (19/20) (1/500) (1/10) (0, 0, 0)⟩

/-! ## The atmospheric-light candidate set -/

/-- The descending comparator is transitive. -/
theorem descLE_trans (a b c : ℕ × ℕ) :
    descLE a b = true → descLE b c = true → descLE a c = true := by
  simp only [descLE, decide_eq_true_eq]
  omega

/-- The descending comparator is total. -/
theorem descLE_total (a b : ℕ × ℕ) : (descLE a b || descLE b a) = true := by
  simp only [descLE, Bool.or_eq_true, decide_eq_true_eq]
  omega

/-- Two positions of a list give a two-element sublist. -/
theorem pair_sublist_of_lt {α : Type} :
    ∀ (l : List α) (i j : ℕ) (hij : i < j) (hj : j < l.length),
      [l[i], l[j]].Sublist l := by
  intro l
  induction l with
  | nil => intro i j hij hj; exact absurd hj (by simp)
  | cons a l ih =>
    intro i j hij hj
    match i, j with
    | 0, j + 1 =>
      simp only [List.getElem_cons_zero, List.getElem_cons_succ]
      exact List.Sublist.cons₂ a
        (List.singleton_sublist.mpr (List.getElem_mem _))
    | i + 1, j + 1 =>
      simp only [List.getElem_cons_succ]
      exact List.Sublist.cons a (ih i j (by omega) (by simpa using hj))

/-- Conversely, a two-element sublist comes from two positions in
order. -/
theorem exists_lt_of_pair_sublist {α : Type} {u v : α} :
    ∀ {l : List α}, [u, v].Sublist l →
      ∃ (i j : ℕ) (hi : i < l.length) (hj : j < l.length),
        i < j ∧ l[i] = u ∧ l[j] = v := by
  intro l
  induction l with
  | nil => intro h; cases h
  | cons a l ih =>
    intro h
    cases h with
    | cons _ h =>
      obtain ⟨i, j, hi, hj, hij, hu, hv⟩ := ih h
      exact ⟨i + 1, j + 1, by simpa using hi, by simpa using hj, by omega,
        by simpa using hu, by simpa using hv⟩
    | cons₂ _ h =>
      obtain ⟨j, hj, hv⟩ := List.mem_iff_getElem.mp (List.singleton_sublist.mp h)
      exact ⟨0, j + 1, by simp, by simpa using hj, by omega, rfl,
        by simpa using hv⟩

/-- Every element of `l.enum` sits at the position given by its own
first component. -/
theorem enum_getElem_self {α : Type} {l : List α} {u : ℕ × α}
    (hu : u ∈ l.enum) :
    ∃ h : u.1 < l.enum.length, l.enum[u.1] = u := by
  have h1 : l[u.1]? = some u.2 := List.mem_enum_iff_getElem?.mp hu
  obtain ⟨hlt, hval⟩ := List.getElem?_eq_some_iff.mp h1
  have hlt2 : u.1 < l.enum.length := by simpa using hlt
  refine ⟨hlt2, ?_⟩
  rw [List.getElem_enum, hval]

/-- Membership in the stably sorted enumeration means: a valid index
paired with its darkness-map entry. -/
theorem mem_sortedIdx (dm : List ℕ) (p : ℕ × ℕ) (hp : p ∈ sortedIdx dm) :
    p.1 < dm.length ∧ dm[p.1]? = some p.2 := by
  rw [sortedIdx, List.mem_mergeSort, List.mem_enum_iff_getElem?] at hp
  exact ⟨(List.getElem?_eq_some_iff.mp hp).1, hp⟩

/-- The sorted enumeration is duplicate-free. -/
theorem sortedIdx_nodup (dm : List ℕ) : (sortedIdx dm).Nodup := by
  rw [sortedIdx, (List.mergeSort_perm dm.enum descLE).nodup_iff]
  exact List.Nodup.of_map Prod.fst
    (by rw [List.enum_map_fst]; exact List.nodup_range _)

/-- The sorted enumeration is sorted by darkness value descending with
ties broken by ascending original index (stability of the sort). -/
theorem sortedIdx_pairwise (dm : List ℕ) :
    List.Pairwise (fun a b : ℕ × ℕ => b.2 < a.2 ∨ (a.2 = b.2 ∧ a.1 < b.1))
      (sortedIdx dm) := by
  have hsorted : List.Pairwise (fun a b => descLE a b = true) (sortedIdx dm) :=
    List.sorted_mergeSort descLE_trans descLE_total dm.enum
  have hnodup := sortedIdx_nodup dm
  rw [List.pairwise_iff_getElem]
  intro i j hi hj hij
  have hle : descLE ((sortedIdx dm)[i]) ((sortedIdx dm)[j]) = true :=
    (List.pairwise_iff_getElem.mp hsorted) i j hi hj hij
  rw [descLE, decide_eq_true_eq] at hle
  rcases Nat.lt_or_ge ((sortedIdx dm)[j]).2 ((sortedIdx dm)[i]).2 with hv | hv
  · exact Or.inl hv
  · have hveq : ((sortedIdx dm)[i]).2 = ((sortedIdx dm)[j]).2 := by omega
    refine Or.inr ⟨hveq, ?_⟩
    by_contra hge
    push_neg at hge
    have hne : (sortedIdx dm)[i] ≠ (sortedIdx dm)[j] := by
      intro he
      exact absurd ((hnodup.getElem_inj_iff).mp he) (by omega)
    have hidx : ((sortedIdx dm)[j]).1 < ((sortedIdx dm)[i]).1 := by
      rcases Nat.lt_or_ge ((sortedIdx dm)[j]).1 ((sortedIdx dm)[i]).1 with h | h
      · exact h
      · rcases Nat.eq_or_lt_of_le h with h | h
        · exact absurd (Prod.ext h hveq) hne
        · omega
    -- `u` precedes `v` in the enumeration but follows it in the output
    set u := (sortedIdx dm)[j] with hu_def
    set v := (sortedIdx dm)[i] with hv_def
    have humem : u ∈ dm.enum := by
      have hm : u ∈ sortedIdx dm := List.getElem_mem hj
      rw [sortedIdx] at hm
      exact List.mem_mergeSort.mp hm
    have hvmem : v ∈ dm.enum := by
      have hm : v ∈ sortedIdx dm := List.getElem_mem hi
      rw [sortedIdx] at hm
      exact List.mem_mergeSort.mp hm
    obtain ⟨hub, hue⟩ := enum_getElem_self humem
    obtain ⟨hvb, hve⟩ := enum_getElem_self hvmem
    have hpair : [u, v].Sublist dm.enum := by
      have := pair_sublist_of_lt dm.enum u.1 v.1 hidx hvb
      rwa [hue, hve] at this
    have hle_uv : descLE u v = true := by
      rw [descLE, decide_eq_true_eq, hveq]
    have hpair2 : [u, v].Sublist (sortedIdx dm) := by
      rw [sortedIdx]
      exact List.pair_sublist_mergeSort descLE_trans descLE_total hle_uv hpair
    obtain ⟨i2, j2, hi2, hj2, hij2, he_u, he_v⟩ :=
      exists_lt_of_pair_sublist hpair2
    have h1 : i2 = j := (hnodup.getElem_inj_iff).mp (by rw [he_u])
    have h2 : j2 = i := (hnodup.getElem_inj_iff).mp (by rw [he_v])
    omega

/-- **C5 (counterexample)**: for the 3-entry darkness map `[0,0,0]` and
`topFraction = 1/2` the code truncates `3 · 1/2` to `1` candidate,
while the claim's `round(N · topFraction)` demands the first `2` sorted
indices. -/
theorem C5_counterexample :
    candidates [0, 0, 0] (1/2) = [0] ∧
    specCandidatesRound [0, 0, 0] (1/2) = [0, 1] ∧
    candidates [0, 0, 0] (1/2) ≠ specCandidatesRound [0, 0, 0] (1/2) := by
  have hpair : List.Pairwise (fun a b => descLE a b = true)
      (([0, 0, 0] : List ℕ).enum) := by decide
  have hs : sortedIdx [0, 0, 0] = [(0, 0), (1, 0), (2, 0)] := by
    rw [sortedIdx, List.mergeSort_of_sorted hpair]
    decide
  have hn : numCandidates ([0, 0, 0] : List ℕ).length (1/2) = 1 := by
    rw [numCandidates]
    norm_num
    rw [Nat.floor_eq_iff (by norm_num)]
    norm_num
  have hr : (round ((([0, 0, 0] : List ℕ).length : ℚ) * (1/2))).toNat = 2 := by
    norm_num [round_eq]
    decide
  refine ⟨?_, ?_, ?_⟩
  · rw [candidates, hn, hs]
    decide
  · rw [specCandidatesRound, hr, hs]
    decide
  · rw [candidates, hn, hs, specCandidatesRound, hr, hs]
    decide

/-- **C5 (amended)**: the candidate set examined by `get_atmospheric`
is exactly the first `⌊N · topFraction⌋` (truncation, not rounding)
indices of the list of all `N` pixel indices stably sorted by
darkness-map value descending: the sorted index list is a permutation
of `0..N-1`, pairs each index with its darkness entry, and is ordered
by value descending with ties in original index order. -/
theorem C5_candidate_prefix (dm : List ℕ) (prop : ℚ) :
    ((sortedIdx dm).map (·.1)).Perm (List.range dm.length) ∧
    (∀ p ∈ sortedIdx dm, p.1 < dm.length ∧ dm[p.1]? = some p.2) ∧
    List.Pairwise (fun a b : ℕ × ℕ => b.2 < a.2 ∨ (a.2 = b.2 ∧ a.1 < b.1))
      (sortedIdx dm) ∧
    candidates dm prop =
      ((sortedIdx dm).map (·.1)).take ⌊(dm.length : ℚ) * prop⌋₊ := by
  refine ⟨?_, mem_sortedIdx dm, sortedIdx_pairwise dm, ?_⟩
  · have h1 : (sortedIdx dm).Perm dm.enum := List.mergeSort_perm _ _
    have h2 := h1.map (Prod.fst : ℕ × ℕ → ℕ)
    rwa [List.enum_map_fst] at h2
  · rw [candidates, numCandidates, List.map_take]

/-- Closed witness for `C5_candidate_prefix` at `dark_map = [7, 7]`,
`topFraction = 1/2`. -/
theorem C5_witness :
    ((sortedIdx [7, 7]).map (·.1)).Perm (List.range ([7, 7] : List ℕ).length) ∧
    (∀ p ∈ sortedIdx [7, 7],
      p.1 < ([7, 7] : List ℕ).length ∧ ([7, 7] : List ℕ)[p.1]? = some p.2) ∧
    List.Pairwise (fun a b : ℕ × ℕ => b.2 < a.2 ∨ (a.2 = b.2 ∧ a.1 < b.1))
      (sortedIdx [7, 7]) ∧
    candidates [7, 7] (1/2) =
      ((sortedIdx [7, 7]).map (·.1)).take
        ⌊(([7, 7] : List ℕ).length : ℚ) * (1/2)⌋₊ :=
  C5_candidate_prefix [7, 7] (1/2)

/-! ## The atmospheric-light scan -/

/-- Full characterization of the `get_atmospheric` scan loop from an
arbitrary accumulator: either no candidate's intensity exceeds the
running best and the accumulator survives unchanged, or the result is
the first candidate attaining the maximum intensity, which strictly
exceeds the incoming best, every other candidate, and all candidates
before it. -/
theorem scanStep_foldl_spec (img : Image) :
    ∀ (l : List ℕ) (acc : ℕ × (ℕ × ℕ × ℕ)),
      (l.foldl (scanStep img) acc = acc ∧
        ∀ (j : ℕ) (hj : j < l.length), intensity (pixAt img l[j]) ≤ acc.1) ∨
      (∃ (k : ℕ) (hk : k < l.length),
        l.foldl (scanStep img) acc =
          (intensity (pixAt img l[k]),
           ((pixAt img l[k]).r, (pixAt img l[k]).g, (pixAt img l[k]).b)) ∧
        acc.1 < intensity (pixAt img l[k]) ∧
        (∀ (j : ℕ) (hj : j < l.length),
          intensity (pixAt img l[j]) ≤ intensity (pixAt img l[k])) ∧
        (∀ (j : ℕ) (hj : j < l.length), j < k →
          intensity (pixAt img l[j]) < intensity (pixAt img l[k]))) := by
  intro l
  induction l with
  | nil =>
    intro acc
    exact Or.inl ⟨rfl, fun j hj => absurd hj (by simp)⟩
  | cons a l ih =>
    intro acc
    by_cases h : acc.1 < intensity (pixAt img a)
    · have hstep : scanStep img acc a =
          (intensity (pixAt img a),
           ((pixAt img a).r, (pixAt img a).g, (pixAt img a).b)) := by
        rw [scanStep, if_pos h]
      rcases ih (scanStep img acc a) with ⟨hfold, hall⟩ | ⟨k, hk, hfold, hacc, hall, hfirst⟩
      · refine Or.inr ⟨0, by simp, ?_, ?_, ?_, ?_⟩
        · rw [List.foldl_cons, hfold, hstep]
          simp
        · simpa using h
        · intro j hj
          match j with
          | 0 => simp
          | j + 1 =>
            have := hall j (by simpa using hj)
            rw [hstep] at this
            simpa using this
        · intro j hj hj0
          exact absurd hj0 (by omega)
      · refine Or.inr ⟨k + 1, by simpa using hk, ?_, ?_, ?_, ?_⟩
        · rw [List.foldl_cons, hfold]
          simp
        · have : (scanStep img acc a).1 < intensity (pixAt img l[k]) := hacc
          rw [hstep] at this
          simp only [List.getElem_cons_succ]
          omega
        · intro j hj
          match j with
          | 0 =>
            have : (scanStep img acc a).1 < intensity (pixAt img l[k]) := hacc
            rw [hstep] at this
            simp only [List.getElem_cons_zero, List.getElem_cons_succ]
            omega
          | j + 1 =>
            have := hall j (by simpa using hj)
            simpa using this
        · intro j hj hjk
          match j with
          | 0 =>
            have : (scanStep img acc a).1 < intensity (pixAt img l[k]) := hacc
            rw [hstep] at this
            simp only [List.getElem_cons_zero, List.getElem_cons_succ]
            omega
          | j + 1 =>
            have := hfirst j (by simpa using hj) (by omega)
            simpa using this
    · have hstep : scanStep img acc a = acc := by
        rw [scanStep, if_neg h]
      push_neg at h
      rcases ih (scanStep img acc a) with ⟨hfold, hall⟩ | ⟨k, hk, hfold, hacc, hall, hfirst⟩
      · refine Or.inl ⟨?_, ?_⟩
        · rw [List.foldl_cons, hfold, hstep]
        · intro j hj
          match j with
          | 0 => simpa using h
          | j + 1 =>
            have := hall j (by simpa using hj)
            rw [hstep] at this
            simpa using this
      · refine Or.inr ⟨k + 1, by simpa using hk, ?_, ?_, ?_, ?_⟩
        · rw [List.foldl_cons, hfold]
          simp
        · have h2 : (scanStep img acc a).1 < intensity (pixAt img l[k]) := hacc
          rw [hstep] at h2
          simp only [List.getElem_cons_succ]
          omega
        · intro j hj
          match j with
          | 0 =>
            have h2 : (scanStep img acc a).1 < intensity (pixAt img l[k]) := hacc
            rw [hstep] at h2
            simp only [List.getElem_cons_zero, List.getElem_cons_succ]
            omega
          | j + 1 =>
            have := hall j (by simpa using hj)
            simpa using this
        · intro j hj hjk
          match j with
          | 0 =>
            have h2 : (scanStep img acc a).1 < intensity (pixAt img l[k]) := hacc
            rw [hstep] at h2
            simp only [List.getElem_cons_zero, List.getElem_cons_succ]
            omega
          | j + 1 =>
            have := hfirst j (by simpa using hj) (by omega)
            simpa using this

/-- **C6**: `get_atmospheric` returns pure white when the candidate set
is empty or when every candidate has intensity `0` (a zero-intensity
candidate can never beat the running maximum seeded at `0`); otherwise
it returns the RGB triple of the first candidate attaining the maximum
intensity — the candidate whose intensity strictly exceeds that of
every earlier candidate (first occurrence wins on ties). -/
theorem C6_atmospheric_selection (dm : List ℕ) (img : Image) (prop : ℚ) :
    (candidates dm prop = [] → get_atmospheric dm img prop = (255, 255, 255)) ∧
    ((∀ i ∈ candidates dm prop, intensity (pixAt img i) = 0) →
      get_atmospheric dm img prop = (255, 255, 255)) ∧
    ((∃ i ∈ candidates dm prop, 0 < intensity (pixAt img i)) →
      ∃ (k : ℕ) (hk : k < (candidates dm prop).length),
        get_atmospheric dm img prop =
          ((pixAt img (candidates dm prop)[k]).r,
           (pixAt img (candidates dm prop)[k]).g,
           (pixAt img (candidates dm prop)[k]).b) ∧
        (∀ (j : ℕ) (hj : j < (candidates dm prop).length),
          intensity (pixAt img (candidates dm prop)[j]) ≤
            intensity (pixAt img (candidates dm prop)[k])) ∧
        (∀ (j : ℕ) (hj : j < (candidates dm prop).length), j < k →
          intensity (pixAt img (candidates dm prop)[j]) <
            intensity (pixAt img (candidates dm prop)[k]))) := by
  refine ⟨?_, ?_, ?_⟩
  · intro h
    rw [get_atmospheric, h]
    rfl
  · intro h
    rcases scanStep_foldl_spec img (candidates dm prop) (0, (255, 255, 255))
      with ⟨hfold, _⟩ | ⟨k, hk, _, hacc, _, _⟩
    · rw [get_atmospheric, hfold]
    · have h0 := h ((candidates dm prop)[k]) (List.getElem_mem hk)
      dsimp only at hacc
      omega
  · rintro ⟨i, hi, hpos⟩
    rcases scanStep_foldl_spec img (candidates dm prop) (0, (255, 255, 255))
      with ⟨_, hall⟩ | ⟨k, hk, hfold, _, hall, hfirst⟩
    · obtain ⟨j, hj, rfl⟩ := List.mem_iff_getElem.mp hi
      have := hall j hj
      dsimp only at this
      omega
    · exact ⟨k, hk, by rw [get_atmospheric, hfold], hall, hfirst⟩

/-- Closed witness for `C6_atmospheric_selection` at `dark_map = [5]`,
a 1×1 image and `topFraction = 1`. -/
theorem C6_witness :
    (candidates [5] 1 = [] → get_atmospheric [5] imgW 1 = (255, 255, 255)) ∧
    ((∀ i ∈ candidates [5] 1, intensity (pixAt imgW i) = 0) →
      get_atmospheric [5] imgW 1 = (255, 255, 255)) ∧
    ((∃ i ∈ candidates [5] 1, 0 < intensity (pixAt imgW i)) →
      ∃ (k : ℕ) (hk : k < (candidates [5] 1).length),
        get_atmospheric [5] imgW 1 =
          ((pixAt imgW (candidates [5] 1)[k]).r,
           (pixAt imgW (candidates [5] 1)[k]).g,
           (pixAt imgW (candidates [5] 1)[k]).b) ∧
        (∀ (j : ℕ) (hj : j < (candidates [5] 1).length),
          intensity (pixAt imgW (candidates [5] 1)[j]) ≤
            intensity (pixAt imgW (candidates [5] 1)[k])) ∧
        (∀ (j : ℕ) (hj : j < (candidates [5] 1).length), j < k →
          intensity (pixAt imgW (candidates [5] 1)[j]) <
            intensity (pixAt imgW (candidates [5] 1)[k]))) :=
  C6_atmospheric_selection [5] imgW 1

/-- **C10**: under the stated preconditions every candidate index is a
valid flat pixel index, and the derived coordinates stay inside the
image, so the pixel access in the intensity scan is in bounds. -/
theorem C10_candidate_bounds (dm : List ℕ) (img : Image) (prop : ℚ)
    (hlen : dm.length = img.width * img.height) (hW : 0 < img.width)
    (hprop : prop ≤ 1) :
    ∀ i ∈ candidates dm prop,
      i < img.width * img.height ∧ i % img.width < img.width ∧
      i / img.width < img.height := by
  intro i hi
  rw [candidates] at hi
  obtain ⟨p, hp, rfl⟩ := List.mem_map.mp hi
  have hp2 : p ∈ sortedIdx dm := List.Sublist.mem hp (List.take_sublist _ _)
  have hb := (mem_sortedIdx dm p hp2).1
  rw [hlen] at hb
  refine ⟨hb, Nat.mod_lt _ hW, ?_⟩
  rw [Nat.div_lt_iff_lt_mul hW]
  calc p.1 < img.width * img.height := hb
    _ = img.height * img.width := Nat.mul_comm _ _

/-- Closed witness for `C10_candidate_bounds` at `dark_map = [1, 2, 3, 4]`,
a 2×2 image and `topFraction = 1`. -/
theorem C10_witness :
    (([1, 2, 3, 4] : List ℕ).length = imgW2.width * imgW2.height ∧
      0 < imgW2.width ∧ (1 : ℚ) ≤ 1) ∧
    (∀ i ∈ candidates [1, 2, 3, 4] 1,
      i < imgW2.width * imgW2.height ∧ i % imgW2.width < imgW2.width ∧
      i / imgW2.width < imgW2.height) :=
  ⟨⟨by decide, by decide, le_refl 1⟩,
   C10_candidate_bounds [1, 2, 3, 4] imgW2 1 (by decide) (by decide) (le_refl 1)⟩

/-! ## Constant-color images -/

/-- A `W × H` image every pixel of which is `(k, k, k)` with no alpha
channel (alpha ≡ 255). -/
def constImage (W H k : ℕ) : Image := ⟨W, H, fun _ _ => ⟨k, k, k, 255⟩⟩

/-- Sum of a constant-valued map. -/
theorem sum_map_const_of {α : Type} :
    ∀ (l : List α) (g : α → ℕ) (k : ℕ), (∀ a ∈ l, g a = k) →
      (l.map g).sum = l.length * k := by
  intro l
  induction l with
  | nil => intro g k _; simp
  | cons a l ih =>
    intro g k h
    rw [List.map_cons, List.sum_cons, ih g k (fun a ha => h a (by simp [ha])),
      h a (by simp)]
    simp [Nat.succ_mul, Nat.add_comm]

/-- The darkness map has one entry per pixel. -/
theorem dark_channel_length (img : Image) (patch : ℕ) :
    (dark_channel img patch).length = img.height * img.width := by
  rw [dark_channel, List.length_flatten, List.map_map]
  rw [sum_map_const_of _ _ img.width (fun y _ => by simp)]
  simp

/-- The four-channel minimum of a constant gray pixel. -/
theorem rgbaMin_constImage (W H k : ℕ) (hk : k ≤ 255) (u v : ℕ) :
    rgbaMin ((constImage W H k).pix u v) = k := by
  simp [constImage, rgbaMin, Nat.min_self, Nat.min_eq_left hk]

/-- **C9 (counterexample)**: on the all-black 1×1 image (`k = 0`,
`patchSize = 1`, `topFraction = 1`) the darkness map is constantly `0`
as claimed, but `get_atmospheric` returns the white default
`(255,255,255)`, not `(0,0,0)`: a zero-intensity candidate never beats
the seed. -/
theorem C9_counterexample :
    dark_channel (constImage 1 1 0) 1 = [0] ∧
    get_atmospheric (dark_channel (constImage 1 1 0) 1) (constImage 1 1 0) 1 =
      (255, 255, 255) ∧
    ((255, 255, 255) : ℕ × ℕ × ℕ) ≠ (0, 0, 0) := by
  have hdc : dark_channel (constImage 1 1 0) 1 = [0] := by decide
  refine ⟨hdc, ?_, by decide⟩
  rw [hdc]
  have hpair : List.Pairwise (fun a b => descLE a b = true)
      (([0] : List ℕ).enum) := by decide
  have hn : numCandidates ([0] : List ℕ).length 1 = 1 := by
    rw [numCandidates]
    norm_num
  rw [get_atmospheric, candidates, sortedIdx, List.mergeSort_of_sorted hpair, hn]
  decide

/-- **C9 (amended)**: for every constant-color image with pixels
`(k,k,k)` (k in `u8` range) and every `patchSize ≥ 1`, the darkness map
is constantly `k`; and whenever `k ≥ 1` and the truncated candidate
count is at least `1`, `get_atmospheric` returns exactly `(k,k,k)`
(for `k = 0`, or an empty candidate set, it returns the white default
instead). -/
theorem C9_uniform_image (W H k patch : ℕ) (prop : ℚ)
    (hW : 0 < W) (hH : 0 < H) (hk : k ≤ 255) (hp : 1 ≤ patch) :
    (∀ v ∈ dark_channel (constImage W H k) patch, v = k) ∧
    (1 ≤ k → 1 ≤ numCandidates (H * W) prop →
      get_atmospheric (dark_channel (constImage W H k) patch)
        (constImage W H k) prop = (k, k, k)) := by
  constructor
  · intro v hv
    rw [dark_channel] at hv
    obtain ⟨r, hr, hvr⟩ := List.mem_flatten.mp hv
    obtain ⟨y, hy, rfl⟩ := List.mem_map.mp hr
    obtain ⟨x, hx, rfl⟩ := List.mem_map.mp hvr
    rw [List.mem_range] at hx hy
    have hub : darkAt (constImage W H k) patch x y ≤ k := by
      have hctr := center_mem_sampledCoords (constImage W H k) patch x y hp hx hy
      have := foldl_min_le_mem
        (fun c : ℕ × ℕ => rgbaMin ((constImage W H k).pix c.1 c.2))
        (sampledCoords (constImage W H k) patch x y) 255 (x, y) hctr
      rw [← darkAt_eq_fold_sampledCoords] at this
      simpa [rgbaMin_constImage W H k hk] using this
    rcases foldl_min_cases
        (fun c : ℕ × ℕ => rgbaMin ((constImage W H k).pix c.1 c.2))
        (sampledCoords (constImage W H k) patch x y) 255 with h | ⟨c, hc, h⟩
    · rw [← darkAt_eq_fold_sampledCoords] at h
      omega
    · rw [← darkAt_eq_fold_sampledCoords] at h
      rw [h, rgbaMin_constImage W H k hk]
  · intro hk1 hnc
    have hlen : (dark_channel (constImage W H k) patch).length = H * W :=
      dark_channel_length _ _
    have hclen : (candidates (dark_channel (constImage W H k) patch) prop).length =
        min (numCandidates (H * W) prop) (H * W) := by
      rw [candidates, List.length_map, List.length_take, sortedIdx,
        List.length_mergeSort, List.enum_length, hlen]
    have hcpos : 0 < (candidates (dark_channel (constImage W H k) patch) prop).length := by
      rw [hclen]
      have h1 : 1 ≤ H * W := Nat.one_le_iff_ne_zero.mpr (by positivity)
      omega
    have hint : ∀ i, intensity (pixAt (constImage W H k) i) = k := by
      intro i
      simp [pixAt, constImage, intensity, Nat.max_self]
    rcases scanStep_foldl_spec (constImage W H k)
        (candidates (dark_channel (constImage W H k) patch) prop)
        (0, (255, 255, 255))
      with ⟨_, hall⟩ | ⟨k2, hk2, hfold, _, _, _⟩
    · have := hall 0 hcpos
      rw [hint] at this
      dsimp only at this
      omega
    · rw [get_atmospheric, hfold]
      simp [pixAt, constImage]

/-- Closed witness for `C9_uniform_image` at the 1×1 constant image
with `k = 1`, `patchSize = 1`, `topFraction = 1`. -/
theorem C9_witness :
    (0 < 1 ∧ 0 < 1 ∧ 1 ≤ 255 ∧ 1 ≤ 1) ∧
    ((∀ v ∈ dark_channel (constImage 1 1 1) 1, v = 1) ∧
     (1 ≤ 1 → 1 ≤ numCandidates (1 * 1) 1 →
       get_atmospheric (dark_channel (constImage 1 1 1) 1)
         (constImage 1 1 1) 1 = (1, 1, 1))) :=
  ⟨⟨Nat.one_pos, Nat.one_pos, by norm_num, Nat.le_refl 1⟩,
   C9_uniform_image 1 1 1 1 1 Nat.one_pos Nat.one_pos (by norm_num)
     (Nat.le_refl 1)⟩

/-! ## Reconstruction -/

/-- **C2**: `reconstruct` produces exactly 3 output samples per input
pixel (alpha dropped, same spatial dimensions), and at pixel `(x,y)`
each channel `c` is `J_c = (I_c - A_c)/t + A_c` with source and
atmospheric channels normalized to `[0,1]`,
`t = max(transmissionMap[y·W+x]/255, t0)`, the result clamped to
`[0,1]` and rescaled to `[0,255]` with rounding. -/
theorem C2_reconstruct_formula (img : Image) (atm : ℕ × ℕ × ℕ)
    (tmap : List ℕ) (t0 : ℚ) (x y : ℕ)
    (hx : x < img.width) (hy : y < img.height) :
    (reconstruct img atm tmap t0).length = 3 * (img.width * img.height) ∧
    (∀ tm : ℕ, tmap[y * img.width + x]? = some tm →
      ∀ t : ℚ, t = max ((tm : ℚ) / 255) t0 →
        (reconstruct img atm tmap t0)[3 * (y * img.width + x)]? =
          some ⌊min (max ((((img.pix x y).r : ℚ) / 255 - (atm.1 : ℚ) / 255) / t
            + (atm.1 : ℚ) / 255) 0) 1 * 255 + 1 / 2⌋₊ ∧
        (reconstruct img atm tmap t0)[3 * (y * img.width + x) + 1]? =
          some ⌊min (max ((((img.pix x y).g : ℚ) / 255 - (atm.2.1 : ℚ) / 255) / t
            + (atm.2.1 : ℚ) / 255) 0) 1 * 255 + 1 / 2⌋₊ ∧
        (reconstruct img atm tmap t0)[3 * (y * img.width + x) + 2]? =
          some ⌊min (max ((((img.pix x y).b : ℚ) / 255 - (atm.2.2 : ℚ) / 255) / t
            + (atm.2.2 : ℚ) / 255) 0) 1 * 255 + 1 / 2⌋₊) := by
  have hrowlen : ∀ r ∈ (List.range img.height).map (fun y2 =>
      ((List.range img.width).map (fun x2 =>
        reconstructPixel img (floatify atm.1, floatify atm.2.1, floatify atm.2.2)
          tmap t0 x2 y2)).flatten),
      r.length = img.width * 3 := by
    intro r hr
    obtain ⟨y2, _, rfl⟩ := List.mem_map.mp hr
    rw [List.length_flatten, List.map_map,
      sum_map_const_of _ _ 3 (fun x2 _ => by simp [reconstructPixel])]
    simp
  constructor
  · rw [reconstruct, List.length_flatten,
      sum_map_const_of _ _ (img.width * 3) hrowlen]
    simp
    ring
  · intro tm htm t ht
    have hidx : ∀ c : ℕ, c < 3 →
        (reconstruct img atm tmap t0)[3 * (y * img.width + x) + c]? =
          (reconstructPixel img
            (floatify atm.1, floatify atm.2.1, floatify atm.2.2)
            tmap t0 x y)[c]? := by
      intro c hc
      rw [reconstruct]
      rw [show 3 * (y * img.width + x) + c = (img.width * 3) * y + (3 * x + c)
        by ring]
      rw [flatten_getElem?_of_const_length (img.width * 3) _ y (3 * x + c)
        hrowlen (by simpa using hy) (by omega)]
      rw [List.getElem_map, List.getElem_range]
      rw [flatten_getElem?_of_const_length 3 _ x c
        (by
          intro r2 hr2
          obtain ⟨x2, _, rfl⟩ := List.mem_map.mp hr2
          simp [reconstructPixel])
        (by simpa using hx) hc]
      rw [List.getElem_map, List.getElem_range]
    subst ht
    refine ⟨?_, ?_, ?_⟩
    · rw [show 3 * (y * img.width + x) = 3 * (y * img.width + x) + 0 from rfl,
        hidx 0 (by omega)]
      simp [reconstructPixel, defloatify, clamp01, floatify, htm]
    · rw [hidx 1 (by omega)]
      simp [reconstructPixel, defloatify, clamp01, floatify, htm]
    · rw [hidx 2 (by omega)]
      simp [reconstructPixel, defloatify, clamp01, floatify, htm]

/-- Closed witness for `C2_reconstruct_formula` at a concrete 1×1
image, transmission map `[100]`, atmospheric light `(50,60,70)` and
`t0 = 1/10`. -/
theorem C2_witness :
    (0 < imgW.width ∧ 0 < imgW.height) ∧
    ((reconstruct imgW (50, 60, 70) [100] (1/10)).length =
      3 * (imgW.width * imgW.height) ∧
    (∀ tm : ℕ, ([100] : List ℕ)[0 * imgW.width + 0]? = some tm →
      ∀ t : ℚ, t = max ((tm : ℚ) / 255) (1/10) →
        (reconstruct imgW (50, 60, 70) [100] (1/10))[3 * (0 * imgW.width + 0)]? =
          some ⌊min (max ((((imgW.pix 0 0).r : ℚ) / 255 - ((50 : ℕ) : ℚ) / 255) / t
            + ((50 : ℕ) : ℚ) / 255) 0) 1 * 255 + 1 / 2⌋₊ ∧
        (reconstruct imgW (50, 60, 70) [100] (1/10))[3 * (0 * imgW.width + 0) + 1]? =
          some ⌊min (max ((((imgW.pix 0 0).g : ℚ) / 255 - ((60 : ℕ) : ℚ) / 255) / t
            + ((60 : ℕ) : ℚ) / 255) 0) 1 * 255 + 1 / 2⌋₊ ∧
        (reconstruct imgW (50, 60, 70) [100] (1/10))[3 * (0 * imgW.width + 0) + 2]? =
          some ⌊min (max ((((imgW.pix 0 0).b : ℚ) / 255 - ((70 : ℕ) : ℚ) / 255) / t
            + ((70 : ℕ) : ℚ) / 255) 0) 1 * 255 + 1 / 2⌋₊)) :=
  ⟨⟨by decide, by decide⟩,
   C2_reconstruct_formula imgW (50, 60, 70) [100] (1/10) 0 0
     (by decide) (by decide)⟩

end Dehazing
